import Mathlib

/-!
Formal model of the OceanofPDFs Tag Remover and Renamer
(files oceanofpdfs_remover_+_renamer.py and oceanofpdfs_remover_+_renamer_v2.py;
the two variants share all functions modelled here verbatim).

Strings are modelled as lists of Unicode code points (a value of type Str is
a List Nat), so the character arithmetic of the ASCII fragment of str.lower
is plain natural-number arithmetic.  The PDF library (PyMuPDF) is treated as
a capability: a page carries its hyperlink URIs and its text spans grouped
in blocks and lines, exactly the structure redact_phrase iterates over, and
applying a redaction erases the matched spans.  The filesystem is an oracle
for existence checks plus a small record of the bytes, timestamps and
temporary file used by process_pdf.
-/

namespace OceanPDF

/-- Strings as lists of code points. -/
abbrev Str := List Nat

/-- Code points of a string literal. -/
def strOf (s : String) : Str := s.data.map Char.toNat

/-- ASCII whitespace, the characters the regex class matches in the
watermark strings handled by the tool: space, tab, newline, carriage
return, vertical tab, form feed. -/
def wsN (c : Nat) : Bool := c == 32 || c == 9 || c == 10 || c == 13 || c == 11 || c == 12

/-- ASCII fragment of Python str.lower: map A..Z to a..z, keep the rest. -/
def lowerN (c : Nat) : Nat := if 65 ≤ c ∧ c ≤ 90 then c + 32 else c

/-- Lower-case a whole string, modelling uri.lower() / str(e).lower(). -/
def lowerStr (s : Str) : Str := s.map lowerN

/-- Boolean prefix test on code-point lists. -/
def isPrefixB : Str → Str → Bool
  | [], _ => true
  | _ :: _, [] => false
  | a :: as, b :: bs => a == b && isPrefixB as bs

/-- Boolean substring test, modelling the Python expression needle in hay. -/
def containsB (needle : Str) : Str → Bool
  | [] => needle.isEmpty
  | c :: cs => isPrefixB needle (c :: cs) || containsB needle cs

/-- Boolean suffix test, modelling name.endswith(suffix). -/
def isSuffixB (suffix s : Str) : Bool := isPrefixB suffix.reverse s.reverse

/-- The letters of the compiled regex TEXT_PATTERN, in order: the pattern
source is o, c, e, a, n, o, f, p, d, f, a literal dot, c, o, m, each pair of
consecutive atoms separated by a zero-or-more-whitespace gap.  Note the
pattern really spells oceanofpdf.com, without the letter s. -/
def patChars : Str := strOf "oceanofpdf.com"

/-- Match the atom list p at the very start of the string, consuming any
whitespace run between consecutive atoms (the gaps are the regex
zero-or-more-whitespace classes; since no atom is itself whitespace, greedy
consumption is exact). -/
def matchSeq : Str → Str → Bool
  | [], _ => true
  | _ :: _, [] => false
  | p :: ps, c :: cs => lowerN c == p && matchSeq ps (cs.dropWhile wsN)

/-- TEXT_PATTERN.search: does any position of the string start a match of
the case-insensitive whitespace-tolerant pattern. -/
def TEXT_PATTERN_search : Str → Bool
  | [] => false
  | c :: cs => matchSeq patChars (c :: cs) || TEXT_PATTERN_search cs

/-- The constant URI_MATCH of the source, used verbatim (mixed case). -/
def URI_MATCH : Str := strOf "OceanofPDFs.com"

/-- The test remove_links applies to one link: the Python condition
uri and URI_MATCH in uri.lower(). -/
def linkMatch (uri : Str) : Bool := !uri.isEmpty && containsB URI_MATCH (lowerStr uri)

/-- remove_links restricted to the list of link URIs of one page: the loop
deletes every link whose URI passes linkMatch and counts the deletions. -/
def remove_links (links : List Str) : List Str × Nat :=
  (links.filter (fun u => !linkMatch u), (links.filter linkMatch).length)

/-- A PDF page as the tool sees it: the URIs of its hyperlink annotations,
and its text spans grouped in blocks of lines, the exact nesting
redact_phrase walks in page.get_text with the dict layout. -/
structure Page where
  links : List Str
  blocks : List (List (List Str))
deriving DecidableEq

/-- A document is its list of pages. -/
abbrev Doc := List Page

/-- All text spans of a page in reading order. -/
def pageSpans (pg : Page) : List Str := pg.blocks.flatten.flatten

/-- Plain text of a page, page.get_text with the text layout: the span
texts separated by line breaks. -/
def pageText (pg : Page) : Str := List.intercalate [10] (pageSpans pg)

/-- The test redact_phrase applies to one span: txt and TEXT_PATTERN.search(txt). -/
def spanMatch (t : Str) : Bool := !t.isEmpty && TEXT_PATTERN_search t

/-- page_might_contain_phrase: extract plain text and search the pattern. -/
def page_might_contain_phrase (pg : Page) : Bool :=
  !(pageText pg).isEmpty && TEXT_PATTERN_search (pageText pg)

/-- remove_links at page level: delete the matching annotations, count them. -/
def remove_links_page (pg : Page) : Page × Nat :=
  ({ pg with links := (remove_links pg.links).1 }, (remove_links pg.links).2)

/-- redact_phrase: count the spans whose text matches, and when at least one
does, apply the redactions, which erases exactly the matched spans; with no
match the page is left untouched and no commit happens. -/
def redact_phrase (pg : Page) : Page × Nat :=
  let hits := ((pageSpans pg).filter spanMatch).length
  if hits = 0 then (pg, 0)
  else
    ({ pg with blocks := pg.blocks.map (fun b => b.map (fun l => l.filter (fun t => !spanMatch t))) },
     hits)

/-- The guarded redaction of the text pass in process_pdf: the cheap
pre-check first, the expensive span scan only when it fires. -/
def redactStep (pg : Page) : Page × Nat :=
  if page_might_contain_phrase pg then redact_phrase pg else (pg, 0)

/-- Run a per-page pass over a document, collecting the updated pages and
the sum of per-page counts, like the for page in doc loops. -/
def runPages (f : Page → Page × Nat) : Doc → Doc × Nat
  | [] => ([], 0)
  | pg :: rest =>
    let r := f pg
    let rr := runPages f rest
    (r.1 :: rr.1, r.2 + rr.2)

/-- The two content-transform passes of process_pdf on an open document:
the link pass on every page, then, unless links_only, the guarded text
redaction pass on every page.  Returns the document, the text hits and the
link hits. -/
def transformDoc (linksOnly : Bool) (d : Doc) : Doc × Nat × Nat :=
  let lk := runPages remove_links_page d
  let rd := if linksOnly then (lk.1, 0) else runPages redactStep lk.1
  (rd.1, rd.2, lk.2)

/-- The steps of process_pdf at which the source can raise: opening the
document, the link pass, the redaction pass, saving to the temporary file,
and moving the temporary file over the original. -/
inductive Step where
  | openDoc | linkPass | redactPass | saveDoc | moveTemp
deriving DecidableEq

/-- The slice of the filesystem process_pdf touches: the original file
bytes and timestamps, and the sibling temporary file when present. -/
structure FS where
  origBytes : Nat
  atime : Nat
  mtime : Nat
  ctime : Nat
  temp : Option Nat
deriving DecidableEq

/-- The tuple process_pdf returns: changed, text hits, link hits, error.
Hit counters are integers because the failure path returns minus one. -/
structure PResult where
  changed : Bool
  textHits : Int
  linkHits : Int
  errMsg : Option Str
deriving DecidableEq

/-- The except-branch of process_pdf: delete the temporary file if present
and report failure with the error text and sentinel counters. -/
def failResult (fs : FS) (m : Str) : FS × PResult :=
  ({ fs with temp := none }, ⟨false, -1, -1, some m⟩)

/-- Abstract byte tag for the serialized form of a document, standing for
the bytes doc.save writes. -/
def docTag (d : Doc) : Nat :=
  (d.map (fun pg => pg.links.length + (pageSpans pg).length)).sum + d.length

/-- process_pdf: the whole cleaning routine with its atomic-replace and
error handling.  The fault oracle says whether a step raises when it is
executed, and with which message; steps that the control flow skips cannot
raise.  The saved document is represented by an abstract byte tag. -/
def process_pdf (d : Doc) (linksOnly dryRun : Bool) (fault : Step → Option Str) (fs : FS) :
    FS × PResult :=
  match fault Step.openDoc with
  | some m => failResult fs m
  | none =>
  match fault Step.linkPass with
  | some m => failResult fs m
  | none =>
  match (if linksOnly then none else fault Step.redactPass) with
  | some m => failResult fs m
  | none =>
    if dryRun then
      (fs, ⟨true, ((transformDoc linksOnly d).2.1 : Int), ((transformDoc linksOnly d).2.2 : Int),
        none⟩)
    else if 0 < (transformDoc linksOnly d).2.1 + (transformDoc linksOnly d).2.2 then
      match fault Step.saveDoc with
      | some m => failResult { fs with temp := some (docTag (transformDoc linksOnly d).1) } m
      | none =>
        match fault Step.moveTemp with
        | some m => failResult { fs with temp := some (docTag (transformDoc linksOnly d).1) } m
        | none =>
          ({ fs with origBytes := docTag (transformDoc linksOnly d).1, temp := none },
           ⟨true, ((transformDoc linksOnly d).2.1 : Int), ((transformDoc linksOnly d).2.2 : Int),
            none⟩)
    else ({ fs with temp := none }, ⟨false, 0, 0, none⟩)

/-- The characters Windows forbids in filenames, the regex class sanitize
removes: backslash, slash, colon, star, question mark, double quote, less
than, greater than, vertical bar. -/
def illegalN (c : Nat) : Bool :=
  c == 92 || c == 47 || c == 58 || c == 42 || c == 63 || c == 34 || c == 60 || c == 62 || c == 124

/-- Python str.strip on both ends for the whitespace class. -/
def stripWs (s : Str) : Str := ((s.dropWhile wsN).reverse.dropWhile wsN).reverse

/-- sanitize: drop the illegal characters, then trim whitespace. -/
def sanitize (s : Str) : Str := stripWs (s.filter (fun c => !illegalN c))

/-- One pass of the run-collapsing substitutions of rule three and four:
a maximal run of characters satisfying p becomes the single character rep.
The boolean state records whether the previous character was inside a run. -/
def collapseAux (p : Nat → Bool) (rep : Nat) : Bool → Str → Str
  | _, [] => []
  | inRun, c :: cs =>
    if p c then
      (if inRun then collapseAux p rep true cs else rep :: collapseAux p rep true cs)
    else c :: collapseAux p rep false cs

/-- re.sub of a one-character-class-plus pattern by a single character. -/
def collapseRuns (p : Nat → Bool) (rep : Nat) (s : Str) : Str := collapseAux p rep false s

/-- The Z-Library suffix constant of the source. -/
def ZLIB_SUFFIX : Str := strOf "_ (Z-Library)"

/-- The OceanofPDFs filename prefix constant of the source. -/
def PREFIX_TAG : Str := strOf "_OceanofPDFs.com_"

/-- The title-author separator of rule two. -/
def SEP_TAG : Str := strOf "_-_"

/-- remainder.split of the separator with maxsplit one: the first
occurrence of sep splits the string in two, no occurrence means no split. -/
def splitFirst (sep : Str) : Str → Option (Str × Str)
  | [] => none
  | c :: cs =>
    if isPrefixB sep (c :: cs) then some ([], (c :: cs).drop sep.length)
    else
      match splitFirst sep cs with
      | some pr => some (c :: pr.1, pr.2)
      | none => none

/-- Rule one of compute_rename: strip a trailing Z-Library suffix. -/
def rule1 (stem : Str) : Str :=
  if isSuffixB ZLIB_SUFFIX stem then stem.take (stem.length - ZLIB_SUFFIX.length) else stem

/-- Rule two of compute_rename: when the stem carries the OceanofPDFs
prefix and the remainder splits on the first separator into exactly two
parts, sanitize both and rewrite as author dash title; in every other case
the name is left untouched (in particular the prefix is NOT stripped when
the separator is absent). -/
def rule2 (name : Str) : Str :=
  if isPrefixB PREFIX_TAG name then
    match splitFirst SEP_TAG (name.drop PREFIX_TAG.length) with
    | some pr => sanitize pr.2 ++ strOf " - " ++ sanitize pr.1
    | none => name
  else name

/-- Rules three and four of compute_rename: collapse underscore runs to a
single space, collapse whitespace runs to a single space, trim. -/
def rules34 (name : Str) : Str :=
  stripWs (collapseRuns wsN 32 (collapseRuns (fun c => c == 95) 32 name))

/-- The pure stem computation inside compute_rename, the four rules in
source order. -/
def computeRenameStem (stem : Str) : Str := rules34 (rule2 (rule1 stem))

/-- A filesystem path split as pathlib sees it: parent directory, stem,
and extension. -/
structure FsPath where
  dir : Str
  stem : Str
  ext : Str
deriving DecidableEq

/-- The candidate path with_stem builds in the collision loop: the original
stem followed by the numbered suffix. -/
def candBase (p : FsPath) (i : Nat) : FsPath :=
  { p with stem := p.stem ++ strOf (" (" ++ toString i ++ ")") }

/-- unique_path: return the path itself when it does not exist, otherwise
the first numbered candidate that does not exist.  The hypothesis that a
free candidate exists is exactly the termination of the while loop. -/
def unique_path (ex : FsPath → Bool) (p : FsPath)
    (h : ∃ i, ex (candBase p (i + 1)) = false) : FsPath :=
  if ex p = false then p else candBase p (Nat.find h + 1)

/-- The target path compute_rename builds before its no-change test:
with_name of the computed stem plus the original extension. -/
def renameTarget (p : FsPath) : FsPath := { p with stem := computeRenameStem p.stem }

/-- compute_rename: none when the computed name equals the current one,
otherwise the collision-resolved target. -/
def compute_rename (ex : FsPath → Bool) (p : FsPath)
    (h : ∃ i, ex (candBase (renameTarget p) (i + 1)) = false) : Option FsPath :=
  if renameTarget p = p then none else some (unique_path ex (renameTarget p) h)

/-- Outcome of one attempt of path.rename as decided by the environment. -/
inductive ROutcome where
  | ok
  | osErr (msg : Str)
deriving DecidableEq

/-- Result of rename_if_needed: either the propagated error text or the
returned pair of the did-rename flag and the final path. -/
inductive RRes where
  | raised (msg : Str)
  | returned (didRename : Bool) (p : FsPath)
deriving DecidableEq

/-- Observable trace of rename_if_needed: how many one-second sleeps
happened, whether the captured timestamps were reapplied, and either the
propagated error text or the returned pair. -/
structure RTrace where
  sleeps : Nat
  restored : Bool
  res : RRes
deriving DecidableEq

/-- The cloud-transient test of the except clause: the lower-cased error
text contains cloud operation or time-out. -/
def isCloudMsg (m : Str) : Bool :=
  containsB (strOf "cloud operation") (lowerStr m) || containsB (strOf "time-out") (lowerStr m)

/-- Whether an attempt outcome is an OSError with a cloud-transient text. -/
def isCloudOut : ROutcome → Bool
  | ROutcome.ok => false
  | ROutcome.osErr m => isCloudMsg m

/-- The error text of an outcome, empty for success. -/
def msgOf : ROutcome → Str
  | ROutcome.ok => []
  | ROutcome.osErr m => m

/-- The retry loop of rename_if_needed: the first parameter counts the
attempts still allowed, the second is the index of the current attempt; the
guard attempt less than retries minus one of the source is exactly the test
that at least one more attempt remains. -/
def renameLoop (oc : Nat → ROutcome) (newP origP : FsPath) : Nat → Nat → RTrace
  | 0, _ => ⟨0, false, RRes.returned false origP⟩
  | remaining + 1, a =>
    match oc a with
    | ROutcome.ok => ⟨0, true, RRes.returned true newP⟩
    | ROutcome.osErr m =>
      if isCloudMsg m && decide (0 < remaining) then
        let t := renameLoop oc newP origP remaining (a + 1)
        ⟨t.sleeps + 1, t.restored, t.res⟩
      else ⟨0, false, RRes.raised m⟩

/-- rename_if_needed: compute the decision, return early when there is
none, report without touching anything in dry-run, otherwise run the
retry loop with the given attempt budget. -/
def rename_if_needed (ex : FsPath → Bool) (p : FsPath)
    (h : ∃ i, ex (candBase (renameTarget p) (i + 1)) = false)
    (dryRun : Bool) (retries : Nat) (oc : Nat → ROutcome) : RTrace :=
  match compute_rename ex p h with
  | none => ⟨0, false, RRes.returned false p⟩
  | some newP => if dryRun then ⟨0, false, RRes.returned true newP⟩ else renameLoop oc newP p retries 0

/-- The first character is not whitespace (vacuous for the empty string). -/
def headNotWs : Str → Bool
  | [] => true
  | c :: _ => !wsN c

/-- The last character is not whitespace (vacuous for the empty string). -/
def lastNotWs : Str → Bool
  | [] => true
  | [c] => !wsN c
  | _ :: c :: cs => lastNotWs (c :: cs)

/-- No two adjacent characters are both whitespace. -/
def noWsRun : Str → Bool
  | [] => true
  | [_] => true
  | a :: b :: cs => !(wsN a && wsN b) && noWsRun (b :: cs)

/-- A well-behaved title or author component: nonempty, free of illegal
characters and underscores, with every whitespace character a plain space,
no two adjacent whitespace characters, and no whitespace at either end. -/
def goodPart (x : Str) : Bool :=
  !x.isEmpty && x.all (fun c => !illegalN c && !(c == 95) && (!wsN c || c == 32))
    && noWsRun x && headNotWs x && lastNotWs x

/-- The everywhere-false existence oracle: an empty directory. -/
def exFalse : FsPath → Bool := fun _ => false

/-- Loop termination for unique_path is trivial under the empty oracle. -/
def exFalseFree (p : FsPath) : ∃ i, exFalse (candBase (renameTarget p) (i + 1)) = false :=
  ⟨0, rfl⟩

/-- Concrete fault oracle for the witnesses: opening the document raises. -/
def faultOpen : Step → Option Str :=
  fun s => if s = Step.openDoc then some (strOf "cannot open broken file") else none

/-- Concrete fault oracle for the witnesses: saving raises. -/
def faultSave : Step → Option Str :=
  fun s => if s = Step.saveDoc then some (strOf "disk full") else none

/-- A concrete filesystem snapshot for the witnesses. -/
def fs0 : FS := ⟨17, 100, 200, 300, none⟩

/-- A page carrying one watermark span the pattern really matches. -/
def pgHit : Page := ⟨[], [[[strOf "oceanofpdf.com"]]]⟩

/-- Concrete path for the witness of the unique-path claim. -/
def pw7 : FsPath := ⟨strOf "books", strOf "document", strOf ".pdf"⟩

/-- Oracle under which pw7 and its first candidate exist, nothing else. -/
def ex7 : FsPath → Bool := fun q => decide (q = pw7) || decide (q = candBase pw7 1)

/-- The second candidate is free, so the collision loop terminates. -/
def ex7Free : ∃ i, ex7 (candBase pw7 (i + 1)) = false := ⟨1, by decide⟩

/-- Concrete prefixed path for the rename witnesses. -/
def pw8 : FsPath := ⟨[], strOf "_OceanofPDFs.com_Gatsby_-_Fitzgerald", strOf ".pdf"⟩

/-- Attempt outcomes for the retry witness: one cloud-transient failure,
then success. -/
def oc8 : Nat → ROutcome :=
  fun n => if n = 0 then ROutcome.osErr (strOf "Cloud Operation timed out") else ROutcome.ok

/-- The fault oracle under which no step raises. -/
def noFault : Step → Option Str := fun _ => none

/-- The code points of the Z-Library suffix read backwards, spelled out for
the suffix-impossibility argument. -/
def zlibRev : Str := [41, 121, 114, 97, 114, 98, 105, 76, 45, 90, 40, 32, 95]

theorem lowerN_ne_79 (c : Nat) : lowerN c ≠ 79 := by
  unfold lowerN
  split
  · next h => omega
  · next h => intro hc; exact h (by omega)

theorem mem_of_containsB_cons (a : Nat) (n hay : Str)
    (h : containsB (a :: n) hay = true) : a ∈ hay := by
  induction hay with
  | nil => simp [containsB, List.isEmpty] at h
  | cons c cs ih =>
    rw [containsB, Bool.or_eq_true] at h
    rcases h with h | h
    · rw [isPrefixB, Bool.and_eq_true, beq_iff_eq] at h
      exact h.1 ▸ List.mem_cons_self c cs
    · exact List.mem_cons_of_mem c (ih h)

theorem linkMatch_false (u : Str) : linkMatch u = false := by
  unfold linkMatch
  cases hc : containsB URI_MATCH (lowerStr u) with
  | false => simp
  | true =>
    exfalso
    have hu : URI_MATCH = 79 :: strOf "ceanofPDFs.com" := by decide
    have h79 : (79 : Nat) ∈ lowerStr u := mem_of_containsB_cons _ _ _ (hu ▸ hc)
    rcases List.mem_map.mp h79 with ⟨c, _, hc79⟩
    exact lowerN_ne_79 c hc79

/-- C1: the spec says the text pattern matches the watermark phrase
OceanofPDFs.com in any letter case with whitespace inserted between
adjacent characters, and the code comments assert the same; in fact the
compiled pattern omits the letter s of PDFs, so it misses the phrase plain
and spaced alike, while matching the s-less oceanofpdf.com. -/
theorem c1_text_pattern_misses_watermark :
    TEXT_PATTERN_search (strOf "OceanofPDFs.com") = false
    ∧ TEXT_PATTERN_search (strOf "O c e a n o f P D F s . c o m") = false
    ∧ TEXT_PATTERN_search (strOf "OceanofPDF.com") = true :=
  ⟨by decide, by decide, by decide⟩

/-- C2: the claim says remove_links deletes exactly the annotations whose
URI contains the watermark domain case-insensitively; in fact the source
tests the mixed-case constant for membership in the lower-cased URI, a test
that can never succeed, so remove_links deletes nothing on any page and a
URI that does contain the domain is kept with a count of zero. -/
theorem remove_links_id (links : List Str) : remove_links links = (links, 0) := by
  unfold remove_links
  have h1 : links.filter linkMatch = [] :=
    List.filter_eq_nil_iff.mpr (fun a _ => by simp [linkMatch_false])
  have h2 : links.filter (fun u => !linkMatch u) = links :=
    List.filter_eq_self.mpr (fun a _ => by simp [linkMatch_false])
  rw [h1, h2]
  rfl

theorem c2_remove_links_never_deletes :
    (∀ links : List Str, remove_links links = (links, 0))
    ∧ remove_links [strOf "https://OceanofPDFs.com/book"]
        = ([strOf "https://OceanofPDFs.com/book"], 0) :=
  ⟨remove_links_id, remove_links_id _⟩

theorem process_pdf_shape (d : Doc) (lo dr : Bool) (fault : Step → Option Str) (fs : FS) :
    (∃ m, process_pdf d lo dr fault fs = failResult fs m)
    ∨ ((process_pdf d lo dr fault fs).2).errMsg = none := by
  unfold process_pdf
  cases h1 : fault Step.openDoc with
  | some m => exact Or.inl ⟨m, rfl⟩
  | none =>
  cases h2 : fault Step.linkPass with
  | some m => exact Or.inl ⟨m, rfl⟩
  | none =>
  cases h3 : (if lo then none else fault Step.redactPass) with
  | some m => exact Or.inl ⟨m, rfl⟩
  | none =>
  cases dr with
  | true => exact Or.inr rfl
  | false =>
    by_cases hch : 0 < (transformDoc lo d).2.1 + (transformDoc lo d).2.2
    · rw [if_neg (by simp), if_pos hch]
      cases h4 : fault Step.saveDoc with
      | some m => exact Or.inl ⟨m, rfl⟩
      | none =>
      cases h5 : fault Step.moveTemp with
      | some m => exact Or.inl ⟨m, rfl⟩
      | none => exact Or.inr rfl
    · rw [if_neg (by simp), if_neg hch]
      exact Or.inr rfl

/-- C3: the spec says the changed component of the process_pdf result
always equals the test that the hit total is positive, in dry-run mode as
well; in fact the dry-run return hands back the literal true even when both
hit counters are zero, as the evaluation on a clean empty document shows,
while in non-dry-run mode the flag does agree with the counters and the
dry-run path indeed leaves the original bytes alone. -/
theorem c3_dry_run_changed_flag :
    ((process_pdf [] false true noFault fs0).2 = ⟨true, 0, 0, none⟩
      ∧ ¬ (0 : Int) < 0 + 0)
    ∧ (∀ (d : Doc) (lo : Bool) (fault : Step → Option Str) (fs : FS),
        ((process_pdf d lo false fault fs).2).changed
          = decide (0 < ((process_pdf d lo false fault fs).2).textHits
              + ((process_pdf d lo false fault fs).2).linkHits))
    ∧ ∀ (d : Doc) (lo : Bool) (fault : Step → Option Str) (fs : FS),
        ((process_pdf d lo true fault fs).1).origBytes = fs.origBytes := by
  refine ⟨⟨by decide, by decide⟩, ?_, ?_⟩
  · intro d lo fault fs
    unfold process_pdf
    cases h1 : fault Step.openDoc with
    | some m => rfl
    | none =>
    cases h2 : fault Step.linkPass with
    | some m => rfl
    | none =>
    cases h3 : (if lo then none else fault Step.redactPass) with
    | some m => rfl
    | none =>
    by_cases hch : 0 < (transformDoc lo d).2.1 + (transformDoc lo d).2.2
    · rw [if_neg (by simp), if_pos hch]
      cases h4 : fault Step.saveDoc with
      | some m => rfl
      | none =>
      cases h5 : fault Step.moveTemp with
      | some m => rfl
      | none =>
        have hcast : (0 : Int) < ((transformDoc lo d).2.1 : Int) + ((transformDoc lo d).2.2 : Int) := by
          exact_mod_cast hch
        exact (decide_eq_true hcast).symm
    · rw [if_neg (by simp), if_neg hch]
      rfl
  · intro d lo fault fs
    unfold process_pdf
    cases h1 : fault Step.openDoc with
    | some m => rfl
    | none =>
    cases h2 : fault Step.linkPass with
    | some m => rfl
    | none =>
    cases h3 : (if lo then none else fault Step.redactPass) with
    | some m => rfl
    | none => rfl

/-- C4: when any of the open, link removal, redaction, save or move steps
of process_pdf raises, the handler leaves the original bytes and all three
captured timestamps untouched, removes any temporary file, and returns a
failure tuple carrying the error text instead of propagating. -/
theorem c4_failure_preserves_original (d : Doc) (lo dr : Bool)
    (fault : Step → Option Str) (fs : FS) (m : Str)
    (h : ((process_pdf d lo dr fault fs).2).errMsg = some m) :
    ((process_pdf d lo dr fault fs).1).origBytes = fs.origBytes
    ∧ ((process_pdf d lo dr fault fs).1).atime = fs.atime
    ∧ ((process_pdf d lo dr fault fs).1).mtime = fs.mtime
    ∧ ((process_pdf d lo dr fault fs).1).ctime = fs.ctime
    ∧ ((process_pdf d lo dr fault fs).1).temp = none
    ∧ (process_pdf d lo dr fault fs).2 = ⟨false, -1, -1, some m⟩ := by
  rcases process_pdf_shape d lo dr fault fs with ⟨m', he⟩ | hnone
  · rw [he] at h ⊢
    have hm : m' = m := by
      simpa [failResult] using h
    subst hm
    exact ⟨rfl, rfl, rfl, rfl, rfl, rfl⟩
  · rw [hnone] at h
    cases h

/-- Witness for C4: a document whose open step raises keeps the original
bytes, leaves no temporary file, and reports the failure tuple. -/
theorem c4_witness :
    ((process_pdf [] false false faultOpen fs0).1).origBytes = fs0.origBytes
    ∧ ((process_pdf [] false false faultOpen fs0).1).temp = none
    ∧ (process_pdf [] false false faultOpen fs0).2
        = ⟨false, -1, -1, some (strOf "cannot open broken file")⟩ := by
  have h := c4_failure_preserves_original [] false false faultOpen fs0
    (strOf "cannot open broken file") (by decide)
  exact ⟨h.1, h.2.2.2.2.1, h.2.2.2.2.2⟩

/-- C10: whenever process_pdf reports an error text, the returned tuple is
exactly false, minus one, minus one, the error: the counts accumulated
before the failure are discarded. -/
theorem c10_error_tuple (d : Doc) (lo dr : Bool) (fault : Step → Option Str) (fs : FS) (m : Str)
    (h : ((process_pdf d lo dr fault fs).2).errMsg = some m) :
    (process_pdf d lo dr fault fs).2 = ⟨false, -1, -1, some m⟩ := by
  rcases process_pdf_shape d lo dr fault fs with ⟨m', he⟩ | hnone
  · rw [he] at h ⊢
    have hm : m' = m := by
      simpa [failResult] using h
    subst hm
    rfl
  · rw [hnone] at h
    cases h

/-- Witness for C10: a save failure on a document that did accumulate one
text hit still reports minus one for both counters. -/
theorem c10_witness :
    (process_pdf [pgHit] false false faultSave fs0).2
      = ⟨false, -1, -1, some (strOf "disk full")⟩ :=
  c10_error_tuple [pgHit] false false faultSave fs0 (strOf "disk full") (by decide)

theorem remove_links_page_id (pg : Page) : remove_links_page pg = (pg, 0) := by
  unfold remove_links_page
  rw [remove_links_id]

theorem pageSpans_filtered (pg : Page) (q : Str → Bool) :
    pageSpans { pg with blocks := pg.blocks.map (fun b => b.map (fun l => l.filter q)) }
      = (pageSpans pg).filter q := by
  simp [pageSpans, List.filter_flatten, List.map_flatten]

theorem redactStep_idem (pg : Page) : redactStep ((redactStep pg).1) = ((redactStep pg).1, 0) := by
  cases hc : page_might_contain_phrase pg with
  | false =>
    have h0 : redactStep pg = (pg, 0) := by rw [redactStep, hc]; rfl
    rw [h0]
    exact h0
  | true =>
    have h1 : redactStep pg = redact_phrase pg := by rw [redactStep, hc]; rfl
    by_cases hh : ((pageSpans pg).filter spanMatch).length = 0
    · have h2 : redact_phrase pg = (pg, 0) := by rw [redact_phrase]; simp [hh]
      rw [h1, h2]
      rw [redactStep, hc]
      exact h2
    · have h2 : (redact_phrase pg).1
          = { pg with blocks := pg.blocks.map (fun b => b.map (fun l => l.filter (fun t => !spanMatch t))) } := by
        rw [redact_phrase]
        simp [hh]
      rw [h1, h2]
      have hsp : (pageSpans { pg with
            blocks := pg.blocks.map (fun b => b.map (fun l => l.filter (fun t => !spanMatch t))) }).filter
            spanMatch = [] := by
        rw [pageSpans_filtered]
        rw [List.filter_filter]
        simp
      cases hc1 : page_might_contain_phrase { pg with
          blocks := pg.blocks.map (fun b => b.map (fun l => l.filter (fun t => !spanMatch t))) } with
      | false => rw [redactStep, hc1]; rfl
      | true =>
        rw [redactStep, hc1]
        simp only [if_true]
        rw [redact_phrase]
        simp [hsp]

theorem runPages_congr_id (f : Page → Page × Nat) (hf : ∀ pg, f pg = (pg, 0)) (d : Doc) :
    runPages f d = (d, 0) := by
  induction d with
  | nil => rfl
  | cons pg rest ih => simp [runPages, hf, ih]

theorem runPages_idem (f : Page → Page × Nat) (hf : ∀ pg, f ((f pg).1) = ((f pg).1, 0)) (d : Doc) :
    runPages f ((runPages f d).1) = ((runPages f d).1, 0) := by
  induction d with
  | nil => rfl
  | cons pg rest ih => simp [runPages, hf, ih]

/-- C9: both content passes are idempotent: running the link pass and the
guarded text redaction a second time on the document produced by a first
run yields zero link removals, zero redaction hits, and leaves the
document unchanged. -/
theorem c9_transform_idempotent (d : Doc) :
    transformDoc false ((transformDoc false d).1) = ((transformDoc false d).1, 0, 0) := by
  have hlk : ∀ dd : Doc, runPages remove_links_page dd = (dd, 0) :=
    runPages_congr_id _ remove_links_page_id
  have hrd : ∀ dd : Doc, runPages redactStep ((runPages redactStep dd).1)
      = ((runPages redactStep dd).1, 0) :=
    runPages_idem _ redactStep_idem
  simp [transformDoc, hlk, hrd]

/-- C7: unique_path returns its argument untouched when it does not exist,
and otherwise the numbered candidate of the least index whose name is free,
every smaller index being taken; in both cases the returned path does not
exist at decision time. -/
theorem c7_unique_path_spec (ex : FsPath → Bool) (p : FsPath)
    (h : ∃ i, ex (candBase p (i + 1)) = false) :
    ex (unique_path ex p h) = false
    ∧ (ex p = false → unique_path ex p h = p)
    ∧ (ex p = true → unique_path ex p h = candBase p (Nat.find h + 1)
        ∧ ∀ j, j < Nat.find h → ex (candBase p (j + 1)) = true) := by
  unfold unique_path
  by_cases hp : ex p = false
  · rw [if_pos hp]
    refine ⟨hp, fun _ => rfl, fun ht => ?_⟩
    rw [ht] at hp
    cases hp
  · rw [if_neg hp]
    refine ⟨Nat.find_spec h, fun hf => absurd hf hp, fun _ => ⟨rfl, fun j hj => ?_⟩⟩
    have hmin := Nat.find_min h hj
    cases hb : ex (candBase p (j + 1)) with
    | true => rfl
    | false => exact absurd hb hmin

/-- Witness for C7: under an oracle where the path and its first candidate
exist, unique_path picks the second candidate, which does not exist. -/
theorem c7_witness :
    ex7 (unique_path ex7 pw7 ex7Free) = false
    ∧ unique_path ex7 pw7 ex7Free = candBase pw7 (Nat.find ex7Free + 1) := by
  have h := c7_unique_path_spec ex7 pw7 ex7Free
  exact ⟨h.1, (h.2.2 (by decide)).1⟩

theorem renameLoop_succ (oc : Nat → ROutcome) (newP origP : FsPath) (rem a : Nat) :
    renameLoop oc newP origP (rem + 1) a =
      match oc a with
      | ROutcome.ok => ⟨0, true, RRes.returned true newP⟩
      | ROutcome.osErr m =>
        if isCloudMsg m && decide (0 < rem) then
          ⟨(renameLoop oc newP origP rem (a + 1)).sleeps + 1,
           (renameLoop oc newP origP rem (a + 1)).restored,
           (renameLoop oc newP origP rem (a + 1)).res⟩
        else ⟨0, false, RRes.raised m⟩ := rfl

theorem renameLoop_allCloud (oc : Nat → ROutcome) (newP origP : FsPath) :
    ∀ r a, (∀ k, k ≤ r → isCloudOut (oc (a + k)) = true) →
      renameLoop oc newP origP (r + 1) a = ⟨r, false, RRes.raised (msgOf (oc (a + r)))⟩ := by
  intro r
  induction r with
  | zero =>
    intro a hcl
    have h0 : isCloudOut (oc a) = true := by simpa using hcl 0 (by omega)
    cases hoc : oc a with
    | ok => rw [hoc] at h0; simp [isCloudOut] at h0
    | osErr mm =>
      have hm : isCloudMsg mm = true := by rw [hoc] at h0; simpa [isCloudOut] using h0
      rw [renameLoop_succ, hoc]
      simp [msgOf, hoc]
  | succ r' ih =>
    intro a hcl
    have h0 : isCloudOut (oc a) = true := by simpa using hcl 0 (by omega)
    cases hoc : oc a with
    | ok => rw [hoc] at h0; simp [isCloudOut] at h0
    | osErr mm =>
      have hm : isCloudMsg mm = true := by rw [hoc] at h0; simpa [isCloudOut] using h0
      have ht := ih (a + 1) (fun k hk => by
        have e : a + 1 + k = a + (k + 1) := by omega
        rw [e]
        exact hcl (k + 1) (by omega))
      have e2 : a + 1 + r' = a + (r' + 1) := by omega
      rw [e2] at ht
      rw [renameLoop_succ, hoc]
      simp [hm, ht]

theorem renameLoop_success (oc : Nat → ROutcome) (newP origP : FsPath) :
    ∀ m rem a, m < rem → (∀ k, k < m → isCloudOut (oc (a + k)) = true) →
      oc (a + m) = ROutcome.ok →
      renameLoop oc newP origP rem a = ⟨m, true, RRes.returned true newP⟩ := by
  intro m
  induction m with
  | zero =>
    intro rem a hlt _ hok
    cases rem with
    | zero => omega
    | succ r =>
      rw [show a + 0 = a by omega] at hok
      rw [renameLoop_succ, hok]
  | succ m' ih =>
    intro rem a hlt hcl hok
    cases rem with
    | zero => omega
    | succ r =>
      have h0 : isCloudOut (oc a) = true := by simpa using hcl 0 (by omega)
      cases hoc : oc a with
      | ok => rw [hoc] at h0; simp [isCloudOut] at h0
      | osErr mm =>
        have hm : isCloudMsg mm = true := by rw [hoc] at h0; simpa [isCloudOut] using h0
        have hr : 0 < r := by omega
        have ht := ih r (a + 1) (by omega) (fun k hk => by
            have e : a + 1 + k = a + (k + 1) := by omega
            rw [e]
            exact hcl (k + 1) (by omega)) (by
          have e : a + 1 + m' = a + (m' + 1) := by omega
          rw [e]
          exact hok)
        rw [renameLoop_succ, hoc]
        simp [hm, hr, ht]

theorem renameLoop_propagates (oc : Nat → ROutcome) (newP origP : FsPath) :
    ∀ m rem a em, m < rem → (∀ k, k < m → isCloudOut (oc (a + k)) = true) →
      oc (a + m) = ROutcome.osErr em → isCloudMsg em = false →
      renameLoop oc newP origP rem a = ⟨m, false, RRes.raised em⟩ := by
  intro m
  induction m with
  | zero =>
    intro rem a em hlt _ hoc hnc
    cases rem with
    | zero => omega
    | succ r =>
      rw [show a + 0 = a by omega] at hoc
      rw [renameLoop_succ, hoc]
      simp [hnc]
  | succ m' ih =>
    intro rem a em hlt hcl hoc hnc
    cases rem with
    | zero => omega
    | succ r =>
      have h0 : isCloudOut (oc a) = true := by simpa using hcl 0 (by omega)
      cases hoca : oc a with
      | ok => rw [hoca] at h0; simp [isCloudOut] at h0
      | osErr mm =>
        have hm : isCloudMsg mm = true := by rw [hoca] at h0; simpa [isCloudOut] using h0
        have hr : 0 < r := by omega
        have ht := ih r (a + 1) em (by omega) (fun k hk => by
            have e : a + 1 + k = a + (k + 1) := by omega
            rw [e]
            exact hcl (k + 1) (by omega)) (by
          have e : a + 1 + m' = a + (m' + 1) := by omega
          rw [e]
          exact hoc) hnc
        rw [renameLoop_succ, hoca]
        simp [hm, hr, ht]

/-- C8: with a rename decision in hand and dry-run off, rename_if_needed
sleeps one second and retries only after attempts that raised an OSError
whose lower-cased text contains cloud operation or time-out; it makes at
most retries attempts in total (the default budget being three), propagates
the error when the attempts are exhausted on cloud errors or immediately on
any other error, and on the first successful attempt reapplies the captured
timestamps to the new path and returns it. -/
theorem c8_retry_policy (ex : FsPath → Bool) (p : FsPath)
    (h : ∃ i, ex (candBase (renameTarget p) (i + 1)) = false)
    (retries : Nat) (oc : Nat → ROutcome) (newP : FsPath)
    (hd : compute_rename ex p h = some newP) (hr : 1 ≤ retries) :
    ((∀ k, k < retries → isCloudOut (oc k) = true) →
        rename_if_needed ex p h false retries oc
          = ⟨retries - 1, false, RRes.raised (msgOf (oc (retries - 1)))⟩)
    ∧ (∀ m, m < retries → (∀ k, k < m → isCloudOut (oc k) = true) → oc m = ROutcome.ok →
        rename_if_needed ex p h false retries oc = ⟨m, true, RRes.returned true newP⟩)
    ∧ (∀ m em, m < retries → (∀ k, k < m → isCloudOut (oc k) = true) →
        oc m = ROutcome.osErr em → isCloudMsg em = false →
        rename_if_needed ex p h false retries oc = ⟨m, false, RRes.raised em⟩) := by
  have hru : rename_if_needed ex p h false retries oc = renameLoop oc newP p retries 0 := by
    rw [rename_if_needed, hd]
    rfl
  refine ⟨?_, ?_, ?_⟩
  · intro hcl
    obtain ⟨r, rfl⟩ : ∃ r, retries = r + 1 := ⟨retries - 1, by omega⟩
    rw [hru]
    have hone := renameLoop_allCloud oc newP p r 0 (fun k hk => by
      simpa using hcl k (by omega))
    simpa using hone
  · intro m hm hcl hok
    rw [hru]
    exact renameLoop_success oc newP p m retries 0 hm
      (fun k hk => by simpa using hcl k hk) (by simpa using hok)
  · intro m em hm hcl hoc hnc
    rw [hru]
    exact renameLoop_propagates oc newP p m retries 0 em hm
      (fun k hk => by simpa using hcl k hk) (by simpa using hoc) hnc

/-- Witness for C8: a prefixed Gatsby file whose first rename attempt
raises a cloud-operation OSError and whose second succeeds is renamed on
the second attempt after one sleep, with the timestamps reapplied. -/
theorem c8_witness :
    rename_if_needed exFalse pw8 (exFalseFree pw8) false 3 oc8
      = ⟨1, true, RRes.returned true ⟨[], strOf "Fitzgerald - Gatsby", strOf ".pdf"⟩⟩ := by
  have h := c8_retry_policy exFalse pw8 (exFalseFree pw8) 3 oc8
    ⟨[], strOf "Fitzgerald - Gatsby", strOf ".pdf"⟩ (by decide) (by decide)
  exact h.2.1 1 (by decide) (by decide) (by decide)

/-- Counterexample to C5 as stated: on the prefixed stem with no separator
the code does not strip the prefix; the output keeps the OceanofPDFs.com
text (underscores turned to spaces), it is not the bare remainder. -/
theorem c5_counterexample :
    computeRenameStem (strOf "_OceanofPDFs.com_SomeTitle") = strOf "OceanofPDFs.com SomeTitle"
    ∧ strOf "OceanofPDFs.com SomeTitle" ≠ strOf "SomeTitle" :=
  ⟨by decide, by decide⟩

/-- C5 amended: for every stem that starts with the prefix, does not end
with the Z-Library suffix, and whose prefix-stripped remainder does not
split on the separator into two parts, compute_rename keeps the whole
prefixed stem and only applies rules three and four to it: the prefix is
not stripped, contrary to the claim that the prefix-stripped remainder
survives. -/
theorem c5_prefix_survives_when_unsplit (stem : Str)
    (h1 : isPrefixB PREFIX_TAG stem = true)
    (h2 : splitFirst SEP_TAG (stem.drop PREFIX_TAG.length) = none)
    (h3 : isSuffixB ZLIB_SUFFIX stem = false) :
    computeRenameStem stem = rules34 stem := by
  unfold computeRenameStem
  have e1 : rule1 stem = stem := by simp [rule1, h3]
  have e2 : rule2 stem = stem := by simp [rule2, h1, h2]
  rw [e1, e2]

/-- Witness for C5: the concrete no-separator stem falls under the amended
statement. -/
theorem c5_witness :
    computeRenameStem (strOf "_OceanofPDFs.com_SomeTitle")
      = rules34 (strOf "_OceanofPDFs.com_SomeTitle") :=
  c5_prefix_survives_when_unsplit _ (by decide) (by decide) (by decide)

/-- Counterexample to C6 as stated: the docstring example title Book_Title
and author Author_Name contain no illegal character, yet the produced name
has their underscores turned to spaces by rule three, so it is not the
literal author dash title. -/
theorem c6_counterexample :
    compute_rename exFalse ⟨[], strOf "_OceanofPDFs.com_Book_Title_-_Author_Name", strOf ".pdf"⟩
        (exFalseFree _)
      = some ⟨[], strOf "Author Name - Book Title", strOf ".pdf"⟩
    ∧ strOf "Author Name - Book Title" ≠ strOf "Author_Name - Book_Title" :=
  ⟨by decide, by decide⟩

theorem isPrefixB_append_self (a b : Str) : isPrefixB a (a ++ b) = true := by
  induction a with
  | nil => rfl
  | cons c cs ih => simp [isPrefixB, ih]

theorem isPrefixB_iff (a : Str) : ∀ b, isPrefixB a b = true ↔ a <+: b := by
  induction a with
  | nil => intro b; simp [isPrefixB, List.nil_prefix]
  | cons c cs ih =>
    intro b
    cases b with
    | nil => simp [isPrefixB]
    | cons d ds => simp [isPrefixB, List.cons_prefix_cons, ih ds, And.comm]

theorem splitFirst_cons (sep : Str) (c : Nat) (cs : Str) :
    splitFirst sep (c :: cs) =
      if isPrefixB sep (c :: cs) then some ([], (c :: cs).drop sep.length)
      else
        match splitFirst sep cs with
        | some pr => some (c :: pr.1, pr.2)
        | none => none := rfl

theorem splitFirst_append (T A : Str) (hT : ∀ c ∈ T, c ≠ 95) :
    splitFirst SEP_TAG (T ++ SEP_TAG ++ A) = some (T, A) := by
  have hs : SEP_TAG = ([95, 45, 95] : Str) := by decide
  induction T with
  | nil =>
    have e : ([] : Str) ++ SEP_TAG ++ A = 95 :: 45 :: 95 :: A := by rw [hs]; rfl
    rw [e, splitFirst_cons]
    rw [if_pos (by rw [hs]; simp [isPrefixB])]
    have hl : SEP_TAG.length = 3 := by decide
    rw [hl]
    rfl
  | cons c T' ih =>
    have hc : c ≠ 95 := hT c (List.mem_cons_self _ _)
    have e : (c :: T') ++ SEP_TAG ++ A = c :: (T' ++ SEP_TAG ++ A) := rfl
    rw [e, splitFirst_cons]
    rw [if_neg ?hneg]
    case hneg =>
      rw [hs]
      simp [isPrefixB]
      intro hcontra
      exact absurd hcontra.symm hc
    rw [ih (fun d hd => hT d (List.mem_cons_of_mem _ hd))]

theorem collapseAux_cons (p : Nat → Bool) (rep : Nat) (b : Bool) (c : Nat) (cs : Str) :
    collapseAux p rep b (c :: cs) =
      if p c then (if b then collapseAux p rep true cs else rep :: collapseAux p rep true cs)
      else c :: collapseAux p rep false cs := rfl

theorem collapseAux_id_of_no_p (p : Nat → Bool) (rep : Nat) (x : Str)
    (h : ∀ c ∈ x, p c = false) : ∀ b, collapseAux p rep b x = x := by
  induction x with
  | nil => intro b; rfl
  | cons c cs ih =>
    intro b
    have hc : p c = false := h c (List.mem_cons_self _ _)
    rw [collapseAux_cons]
    rw [if_neg (by rw [hc]; exact Bool.false_ne_true)]
    rw [ih (fun d hd => h d (List.mem_cons_of_mem _ hd)) false]

theorem noWsRun_cons2 (a b : Nat) (cs : Str) :
    noWsRun (a :: b :: cs) = (!(wsN a && wsN b) && noWsRun (b :: cs)) := rfl

theorem noWsRun_tail (c : Nat) (cs : Str) (h : noWsRun (c :: cs) = true) :
    noWsRun cs = true := by
  cases cs with
  | nil => rfl
  | cons d ds =>
    rw [noWsRun_cons2, Bool.and_eq_true] at h
    exact h.2

theorem dropWhile_id_of_headNotWs (x : Str) (h : headNotWs x = true) :
    x.dropWhile wsN = x := by
  cases x with
  | nil => rfl
  | cons c cs =>
    rw [headNotWs] at h
    rw [List.dropWhile_cons]
    simp only [Bool.not_eq_true'] at h
    simp [h]

theorem headNotWs_reverse (x : Str) : headNotWs x.reverse = lastNotWs x := by
  induction x with
  | nil => rfl
  | cons c cs ih =>
    cases cs with
    | nil => rfl
    | cons d ds =>
      have h1 : (c :: d :: ds).reverse = (d :: ds).reverse ++ [c] := List.reverse_cons _ _
      rw [h1]
      have h2 : headNotWs ((d :: ds).reverse ++ [c]) = headNotWs ((d :: ds).reverse) := by
        cases he : (d :: ds).reverse with
        | nil => exact absurd he (by simp)
        | cons e es => rfl
      rw [h2, ih]
      rfl

theorem stripWs_eq_self (x : Str) (h1 : headNotWs x = true) (h2 : lastNotWs x = true) :
    stripWs x = x := by
  unfold stripWs
  rw [dropWhile_id_of_headNotWs x h1]
  rw [dropWhile_id_of_headNotWs x.reverse (by rw [headNotWs_reverse]; exact h2)]
  exact List.reverse_reverse x

theorem collapseAux_ws_id (x : Str) (hsp : ∀ c ∈ x, wsN c = true → c = 32)
    (hrun : noWsRun x = true) :
    collapseAux wsN 32 false x = x ∧ (headNotWs x = true → collapseAux wsN 32 true x = x) := by
  induction x with
  | nil => exact ⟨rfl, fun _ => rfl⟩
  | cons c cs ih =>
    have ihcs := ih (fun d hd hw => hsp d (List.mem_cons_of_mem _ hd) hw) (noWsRun_tail c cs hrun)
    constructor
    · cases hwc : wsN c with
      | false =>
        rw [collapseAux_cons]
        rw [if_neg (by rw [hwc]; exact Bool.false_ne_true)]
        rw [ihcs.1]
      | true =>
        have hc32 : c = 32 := hsp c (List.mem_cons_self _ _) hwc
        rw [collapseAux_cons]
        rw [if_pos (by rw [hwc])]
        rw [if_neg Bool.false_ne_true]
        have hnext : collapseAux wsN 32 true cs = cs := by
          cases cs with
          | nil => rfl
          | cons d ds =>
            have hd : wsN d = false := by
              rw [noWsRun_cons2, Bool.and_eq_true] at hrun
              have hpair := hrun.1
              rw [hwc] at hpair
              simpa using hpair
            exact ihcs.2 (by rw [headNotWs, hd]; rfl)
        rw [hnext, hc32]
    · intro hh
      have hwc : wsN c = false := by rw [headNotWs] at hh; simpa using hh
      rw [collapseAux_cons]
      rw [if_neg (by rw [hwc]; exact Bool.false_ne_true)]
      rw [ihcs.1]

theorem headNotWs_append (x y : Str) (hx : x ≠ []) : headNotWs (x ++ y) = headNotWs x := by
  cases x with
  | nil => exact absurd rfl hx
  | cons c cs => rfl

theorem lastNotWs_cons (c : Nat) (l : Str) (h : l ≠ []) : lastNotWs (c :: l) = lastNotWs l := by
  cases l with
  | nil => exact absurd rfl h
  | cons d ds => rfl

theorem lastNotWs_append (x y : Str) (hy : y ≠ []) : lastNotWs (x ++ y) = lastNotWs y := by
  induction x with
  | nil => rfl
  | cons c cs ih =>
    have hne : cs ++ y ≠ [] := fun hcontra => hy (List.append_eq_nil.mp hcontra).2
    rw [List.cons_append, lastNotWs_cons c _ hne, ih]

theorem noWsRun_append_right (x y : Str) (hx : noWsRun x = true) (hy : noWsRun y = true)
    (hhy : headNotWs y = true) : noWsRun (x ++ y) = true := by
  induction x with
  | nil => simpa using hy
  | cons c cs ih =>
    cases cs with
    | nil =>
      cases y with
      | nil => simpa using hx
      | cons d ds =>
        have hd : wsN d = false := by rw [headNotWs] at hhy; simpa using hhy
        show noWsRun (c :: d :: ds) = true
        rw [noWsRun_cons2, hd]
        simp [hy]
    | cons c2 cs2 =>
      rw [noWsRun_cons2, Bool.and_eq_true] at hx
      have e : (c :: c2 :: cs2) ++ y = c :: c2 :: (cs2 ++ y) := rfl
      rw [e, noWsRun_cons2, Bool.and_eq_true]
      exact ⟨hx.1, ih hx.2⟩

theorem noWsRun_append_left (x y : Str) (hx : noWsRun x = true) (hy : noWsRun y = true)
    (hlx : lastNotWs x = true) : noWsRun (x ++ y) = true := by
  induction x with
  | nil => simpa using hy
  | cons c cs ih =>
    cases cs with
    | nil =>
      have hc : wsN c = false := by rw [lastNotWs] at hlx; simpa using hlx
      cases y with
      | nil => simpa using hx
      | cons d ds =>
        show noWsRun (c :: d :: ds) = true
        rw [noWsRun_cons2, hc]
        simp [hy]
    | cons c2 cs2 =>
      rw [noWsRun_cons2, Bool.and_eq_true] at hx
      have hlx2 : lastNotWs (c2 :: cs2) = true := by
        rw [lastNotWs_cons c _ (by simp)] at hlx
        exact hlx
      have e : (c :: c2 :: cs2) ++ y = c :: c2 :: (cs2 ++ y) := rfl
      rw [e, noWsRun_cons2, Bool.and_eq_true]
      exact ⟨hx.1, ih hx.2 hlx2⟩

theorem goodPart_spec (x : Str) (h : goodPart x = true) :
    x ≠ [] ∧ (∀ c ∈ x, illegalN c = false ∧ c ≠ 95 ∧ (wsN c = true → c = 32))
      ∧ noWsRun x = true ∧ headNotWs x = true ∧ lastNotWs x = true := by
  unfold goodPart at h
  simp only [Bool.and_eq_true] at h
  obtain ⟨⟨⟨⟨hne, hall⟩, hrun⟩, hhead⟩, hlast⟩ := h
  refine ⟨?_, ?_, hrun, hhead, hlast⟩
  · intro hx
    rw [hx] at hne
    simp [List.isEmpty] at hne
  · intro c hc
    have hcall : (!illegalN c && !(c == 95) && (!wsN c || c == 32)) = true :=
      List.all_eq_true.mp hall c hc
    simp only [Bool.and_eq_true, Bool.or_eq_true, Bool.not_eq_true', beq_iff_eq,
      beq_eq_false_iff_ne] at hcall
    obtain ⟨⟨hil, h95⟩, hws⟩ := hcall
    refine ⟨hil, h95, ?_⟩
    intro hwsc
    rcases hws with hw | he
    · exact absurd hwsc (by simp [hw])
    · exact he

theorem zlib_not_suffix (T A : Str) (hA95 : ∀ c ∈ A, c ≠ 95) (hAhead : headNotWs A = true) :
    isSuffixB ZLIB_SUFFIX (PREFIX_TAG ++ T ++ SEP_TAG ++ A) = false := by
  cases hb : isSuffixB ZLIB_SUFFIX (PREFIX_TAG ++ T ++ SEP_TAG ++ A) with
  | false => rfl
  | true =>
    exfalso
    unfold isSuffixB at hb
    rw [isPrefixB_iff] at hb
    have hzr : ZLIB_SUFFIX.reverse = zlibRev := by decide
    have hrev : (PREFIX_TAG ++ T ++ SEP_TAG ++ A).reverse
        = A.reverse ++ 95 :: 45 :: 95 :: (T.reverse ++ PREFIX_TAG.reverse) := by
      rw [List.reverse_append, List.reverse_append, List.reverse_append]
      have hs : SEP_TAG.reverse = ([95, 45, 95] : Str) := by decide
      rw [hs]
      rfl
    rw [hzr, hrev] at hb
    have hZr := List.prefix_iff_eq_take.mp hb
    have hlen13 : zlibRev.length = 13 := by decide
    rw [hlen13, List.take_append_eq_append_take] at hZr
    by_cases hA13 : 13 ≤ A.length
    · have h0 : 13 - A.reverse.length = 0 := by rw [List.length_reverse]; omega
      rw [h0, List.take_zero, List.append_nil] at hZr
      have h95 : (95 : Nat) ∈ zlibRev := by decide
      rw [hZr] at h95
      have h95A : (95 : Nat) ∈ A := List.mem_reverse.mp (List.mem_of_mem_take h95)
      exact hA95 95 h95A rfl
    · push_neg at hA13
      have htk : A.reverse.take 13 = A.reverse :=
        List.take_of_length_le (by rw [List.length_reverse]; omega)
      rw [htk] at hZr
      obtain ⟨k, hk⟩ : ∃ k, 13 - A.reverse.length = k + 1 :=
        ⟨12 - A.reverse.length, by rw [List.length_reverse]; omega⟩
      rw [hk, List.take_succ_cons] at hZr
      by_cases h12 : A.length = 12
      · have hlenr : A.reverse.length = 12 := by rw [List.length_reverse]; exact h12
        have h1 := List.take_left A.reverse
          (95 :: (45 :: 95 :: (T.reverse ++ PREFIX_TAG.reverse)).take k)
        rw [← hZr, hlenr] at h1
        have hAeq : A = (zlibRev.take 12).reverse := by
          rw [h1, List.reverse_reverse]
        rw [hAeq] at hAhead
        revert hAhead
        decide
      · have hfact : ∀ n, n < 12 → (zlibRev.drop n).head? ≠ some 95 := by decide
        have hdrop : (zlibRev.drop A.reverse.length).head? = some 95 := by
          rw [hZr, List.drop_left]
          rfl
        exact hfact A.reverse.length (by rw [List.length_reverse]; omega) hdrop

theorem computeRenameStem_normal (T A : Str) (hT : goodPart T = true) (hA : goodPart A = true) :
    computeRenameStem (PREFIX_TAG ++ T ++ SEP_TAG ++ A) = A ++ strOf " - " ++ T := by
  obtain ⟨hTne, hTc, hTrun, hThead, hTlast⟩ := goodPart_spec T hT
  obtain ⟨hAne, hAc, hArun, hAhead, hAlast⟩ := goodPart_spec A hA
  have hassoc : PREFIX_TAG ++ T ++ SEP_TAG ++ A = PREFIX_TAG ++ (T ++ SEP_TAG ++ A) := by
    simp [List.append_assoc]
  have hz : isSuffixB ZLIB_SUFFIX (PREFIX_TAG ++ T ++ SEP_TAG ++ A) = false :=
    zlib_not_suffix T A (fun c hc => (hAc c hc).2.1) hAhead
  have e1 : rule1 (PREFIX_TAG ++ T ++ SEP_TAG ++ A) = PREFIX_TAG ++ T ++ SEP_TAG ++ A := by
    unfold rule1
    rw [if_neg (by rw [hz]; exact Bool.false_ne_true)]
  have hpfx : isPrefixB PREFIX_TAG (PREFIX_TAG ++ T ++ SEP_TAG ++ A) = true := by
    rw [hassoc]
    exact isPrefixB_append_self _ _
  have hdrop : (PREFIX_TAG ++ T ++ SEP_TAG ++ A).drop PREFIX_TAG.length = T ++ SEP_TAG ++ A := by
    rw [hassoc]
    exact List.drop_left _ _
  have hsplit : splitFirst SEP_TAG (T ++ SEP_TAG ++ A) = some (T, A) :=
    splitFirst_append T A (fun c hc => (hTc c hc).2.1)
  have e2 : rule2 (PREFIX_TAG ++ T ++ SEP_TAG ++ A) = sanitize A ++ strOf " - " ++ sanitize T := by
    unfold rule2
    rw [if_pos hpfx, hdrop, hsplit]
  have hsanT : sanitize T = T := by
    unfold sanitize
    rw [List.filter_eq_self.mpr (fun c hc => by simp [(hTc c hc).1])]
    exact stripWs_eq_self T hThead hTlast
  have hsanA : sanitize A = A := by
    unfold sanitize
    rw [List.filter_eq_self.mpr (fun c hc => by simp [(hAc c hc).1])]
    exact stripWs_eq_self A hAhead hAlast
  have hmid : strOf " - " = ([32, 45, 32] : Str) := by decide
  have hmem3 : ∀ c ∈ A ++ strOf " - " ++ T, c ∈ A ∨ c ∈ ([32, 45, 32] : Str) ∨ c ∈ T := by
    intro c hc
    rcases List.mem_append.mp hc with hc1 | hc2
    · rcases List.mem_append.mp hc1 with hca | hcm
      · exact Or.inl hca
      · rw [hmid] at hcm
        exact Or.inr (Or.inl hcm)
    · exact Or.inr (Or.inr hc2)
  have h95s : ∀ c ∈ A ++ strOf " - " ++ T, (fun c => c == 95) c = false := by
    intro c hc
    rcases hmem3 c hc with hca | hcm | hct
    · simpa using (hAc c hca).2.1
    · have hcv : c = 32 ∨ c = 45 ∨ c = 32 := by simpa using hcm
      rcases hcv with h | h | h <;> (rw [h]; rfl)
    · simpa using (hTc c hct).2.1
  have hcol1 : collapseRuns (fun c => c == 95) 32 (A ++ strOf " - " ++ T)
      = A ++ strOf " - " ++ T :=
    collapseAux_id_of_no_p _ _ _ h95s false
  have hwssp : ∀ c ∈ A ++ strOf " - " ++ T, wsN c = true → c = 32 := by
    intro c hc hw
    rcases hmem3 c hc with hca | hcm | hct
    · exact (hAc c hca).2.2 hw
    · have hcv : c = 32 ∨ c = 45 ∨ c = 32 := by simpa using hcm
      rcases hcv with h | h | h
      · exact h
      · rw [h] at hw
        exact absurd hw (by decide)
      · exact h
    · exact (hTc c hct).2.2 hw
  have hmidrun : noWsRun (strOf " - " ++ T) = true := by
    rw [hmid]
    exact noWsRun_append_right _ _ (by decide) hTrun hThead
  have hrun2 : noWsRun (A ++ strOf " - " ++ T) = true := by
    rw [List.append_assoc]
    exact noWsRun_append_left _ _ hArun hmidrun hAlast
  have hcol2 : collapseRuns wsN 32 (A ++ strOf " - " ++ T) = A ++ strOf " - " ++ T :=
    (collapseAux_ws_id _ hwssp hrun2).1
  have hhead2 : headNotWs (A ++ strOf " - " ++ T) = true := by
    rw [headNotWs_append _ _ (fun hx => hAne (List.append_eq_nil.mp hx).1)]
    rw [headNotWs_append _ _ hAne]
    exact hAhead
  have hlast2 : lastNotWs (A ++ strOf " - " ++ T) = true := by
    rw [lastNotWs_append _ _ hTne]
    exact hTlast
  unfold computeRenameStem
  rw [e1, e2, hsanA, hsanT]
  unfold rules34
  rw [hcol1, hcol2]
  exact stripWs_eq_self _ hhead2 hlast2

theorem unique_path_free (ex : FsPath → Bool) (q : FsPath)
    (h : ∃ i, ex (candBase q (i + 1)) = false) (hq : ex q = false) :
    unique_path ex q h = q := by
  unfold unique_path
  rw [if_pos hq]

/-- C6 amended: for filenames of the form prefix title separator author
with title and author nonempty, free of illegal characters and of
underscores, all their whitespace single interior spaces, and the target
not existing, compute_rename yields author, space dash space, title, with
the pdf extension in the same directory; the original claim read the same
but allowed underscores, which rules three and four turn into spaces. -/
theorem c6_normalized_rename (dir T A : Str) (ex : FsPath → Bool)
    (hT : goodPart T = true) (hA : goodPart A = true)
    (h : ∃ i, ex (candBase (renameTarget
        ⟨dir, PREFIX_TAG ++ T ++ SEP_TAG ++ A, strOf ".pdf"⟩) (i + 1)) = false)
    (hex : ex ⟨dir, A ++ strOf " - " ++ T, strOf ".pdf"⟩ = false) :
    compute_rename ex ⟨dir, PREFIX_TAG ++ T ++ SEP_TAG ++ A, strOf ".pdf"⟩ h
      = some ⟨dir, A ++ strOf " - " ++ T, strOf ".pdf"⟩ := by
  obtain ⟨hTne, hTc, _, _, _⟩ := goodPart_spec T hT
  obtain ⟨hAne, hAc, _, _, _⟩ := goodPart_spec A hA
  have hstem := computeRenameStem_normal T A hT hA
  have htgt : renameTarget ⟨dir, PREFIX_TAG ++ T ++ SEP_TAG ++ A, strOf ".pdf"⟩
      = ⟨dir, A ++ strOf " - " ++ T, strOf ".pdf"⟩ := by
    show (⟨dir, computeRenameStem (PREFIX_TAG ++ T ++ SEP_TAG ++ A), strOf ".pdf"⟩ : FsPath) = _
    rw [hstem]
  have hne : renameTarget ⟨dir, PREFIX_TAG ++ T ++ SEP_TAG ++ A, strOf ".pdf"⟩
      ≠ ⟨dir, PREFIX_TAG ++ T ++ SEP_TAG ++ A, strOf ".pdf"⟩ := by
    rw [htgt]
    intro hcontra
    have hstems : A ++ strOf " - " ++ T = PREFIX_TAG ++ T ++ SEP_TAG ++ A :=
      congrArg FsPath.stem hcontra
    cases hA0 : A with
    | nil => exact hAne hA0
    | cons a as =>
      rw [hA0] at hstems
      have h1 : ((a :: as) ++ strOf " - " ++ T).head? = some a := rfl
      have h2 : (PREFIX_TAG ++ T ++ SEP_TAG ++ (a :: as)).head? = some 95 := by
        have hp : PREFIX_TAG = 95 :: strOf "OceanofPDFs.com_" := by decide
        rw [hp]
        rfl
      rw [hstems, h2] at h1
      have ha95 : a = 95 := by
        injection h1 with hv
        exact hv.symm
      exact (hAc a (by rw [hA0]; exact List.mem_cons_self _ _)).2.1 ha95
  have hq' : ex (renameTarget ⟨dir, PREFIX_TAG ++ T ++ SEP_TAG ++ A, strOf ".pdf"⟩) = false := by
    rw [htgt]
    exact hex
  unfold compute_rename
  rw [if_neg hne]
  rw [unique_path_free ex _ h hq', htgt]

/-- Witness for C6: the Gatsby example with underscore-free title and
author is renamed to Fitzgerald space dash space Gatsby. -/
theorem c6_witness :
    compute_rename exFalse ⟨[], PREFIX_TAG ++ strOf "Gatsby" ++ SEP_TAG ++ strOf "Fitzgerald",
        strOf ".pdf"⟩ (exFalseFree _)
      = some ⟨[], strOf "Fitzgerald" ++ strOf " - " ++ strOf "Gatsby", strOf ".pdf"⟩ :=
  c6_normalized_rename [] (strOf "Gatsby") (strOf "Fitzgerald") exFalse
    (by decide) (by decide) (exFalseFree _) rfl

end OceanPDF
